import Mathlib

/-!
Verification development for the MSMARCO vector-benchmark harness of the
arcadedb-embedded-python repository.

The subject is the shard catalog / streaming corpus reader / query
materializer / ground-truth engine / benchmark orchestrator found in
`examples/benchmark-vector/benchmark_arcadedb_msmarco.py` and
`examples/benchmark-vector/convert-msmacro-parquet-to-shards.py`.

Modelling conventions:
* Vectors (corpus rows) are `List ℚ`; float32 arithmetic is embedded as exact
  rational arithmetic.
* A shard file is a `Shard`: its declared global `start` and the list of rows
  its bytes hold (a memmap of shape `(count, dim)` exposes exactly that list,
  so `count = rows.length`; `dim` is carried as a parameter where the source
  takes it but plays no algorithmic role once rows are materialized).
* Python generators are embedded as the finite list of values they yield.
* Python's `heapq` heap is embedded by its multiset of entries kept as an
  ascending sorted list: `heapq.heappush` inserts, `heapq.heappushpop h e`
  pops the least element after pushing `e` (equivalently: if `h[0] < e` the
  minimum is removed and `e` inserted, else the heap is unchanged), and
  `list.sort` depends only on the multiset.  All observations the source
  makes of a heap (the root `h[0]`, `heappushpop`, the final sort) are
  functions of the multiset, so this embedding is exact.
* Python tuple comparison on `(score, doc_id)` pairs is the lexicographic
  order `entryLt`.
-/

namespace ArcadeBench

/-- One corpus row (a vector of `dim` float32 values, embedded as rationals). -/
abbrev Row := List ℚ

/-- One shard file of the catalog, as resolved by `resolve_dataset`:
its declared first global row index and the rows stored in the file. -/
structure Shard where
  start : Nat
  rows : List Row
deriving DecidableEq

/-- The whole corpus described by a shard list, in shard order
(`np.memmap` of each file, concatenated). -/
def corpusOf (sources : List Shard) : List Row :=
  (sources.map (fun s => s.rows)).flatten

/-- `contiguousFrom n sources` checks the catalog invariant of
`resolve_dataset`: each shard's declared `start` is the running sum of the
previous shards' row counts, beginning at `n`. -/
def contiguousFrom : Nat → List Shard → Bool
  | _, [] => true
  | n, s :: rest => decide (s.start = n) && contiguousFrom (n + s.rows.length) rest

/-- The inner `while start < shard_limit` loop of `stream_shards`
(benchmark_arcadedb_msmarco.py:218-221): starting from the slice `l` of the
mapped shard and global position `gstart`, repeatedly yield
`(gstart, mm[start:end])` with `end = min(start + batch_size, shard_limit)`.
The source loops forever when `batch_size = 0`; this model is only ever used
(as in every claim) with `batch_size ≥ 1`, where it agrees with the source
batch for batch. -/
def batchLoop (batch_size gstart : Nat) : List Row → List (Nat × List Row)
  | [] => []
  | x :: xs =>
    (gstart, x :: xs.take (batch_size - 1)) ::
      batchLoop batch_size (gstart + batch_size) (xs.drop (batch_size - 1))
termination_by l => l.length
decreasing_by simp [List.length_drop]; omega

/-- The `for s in sources` loop of `stream_shards`
(benchmark_arcadedb_msmarco.py:199-223), carrying the mutable `to_skip` and
`remaining` variables.  Branches mirror the source line by line:
`remaining <= 0: break`; `to_skip >= shard_rows: to_skip -= shard_rows;
continue`; `take_total = min(shard_rows - shard_skip, remaining)`;
`take_total <= 0: continue` (dead in practice); then the memmapped batch
loop followed by `remaining -= take_total`. -/
def streamShardsGo (batch_size : Nat) : Nat → Nat → List Shard → List (Nat × List Row)
  | _, _, [] => []
  | to_skip, remaining, s :: rest =>
    if remaining = 0 then []
    else if s.rows.length ≤ to_skip then
      streamShardsGo batch_size (to_skip - s.rows.length) remaining rest
    else
      let shard_skip := to_skip
      let take_total := min (s.rows.length - shard_skip) remaining
      if take_total = 0 then streamShardsGo batch_size 0 remaining rest
      else
        batchLoop batch_size (s.start + shard_skip)
            ((s.rows.drop shard_skip).take take_total) ++
          streamShardsGo batch_size 0 (remaining - take_total) rest

/-- `stream_shards(sources, dim, batch_size, start_offset, max_rows)`
(benchmark_arcadedb_msmarco.py:183-223), embedded as the list of
`(global_start, batch)` pairs the generator yields.  `dim` only fixes the
memmap shape and has no further algorithmic role once rows are given. -/
def stream_shards (sources : List Shard) (dim batch_size start_offset : Nat)
    (max_rows : Option Nat) : List (Nat × List Row) :=
  let total_rows := (sources.map (fun s => s.rows.length)).sum
  if total_rows ≤ start_offset then []
  else
    streamShardsGo batch_size start_offset
      (max_rows.getD (total_rows - start_offset)) sources

/-- Flatten streamed batches to `(global_row_index, row)` pairs: batch
`(g, b)` stands for rows `g, g+1, …` (this is exactly what
`enumerate(batch, start=base_id)` does in `ingest_vectors_streaming`). -/
def streamPairs (l : List (Nat × List Row)) : List (Nat × Row) :=
  l.flatMap (fun p => List.enumFrom p.1 p.2)

/-- `ingest_vectors_streaming(db, sources, dim, count, batch_size, …,
start_offset)` (benchmark_arcadedb_msmarco.py:257-291), embedded as the list
of `("id", "vector")` pairs saved as vertices: for every streamed batch
`(base_id, batch)` it saves one vertex per row with
`id = base_id + position_in_batch` (`enumerate(batch, start=base_id)`).
The returned Python value `ingested` is the length of this list. -/
def ingest_vectors_streaming (sources : List Shard) (dim count batch_size start_offset : Nat) :
    List (Nat × Row) :=
  streamPairs (stream_shards sources dim batch_size start_offset (some count))

/-- The two-sub-phase ingest of `main` (benchmark_arcadedb_msmarco.py:512-548):
`first_batch_rows = min(batch_size, count)` ingested at `start_offset=0`,
then, if rows remain, `count - ingested_first` more rows at
`start_offset = ingested_first`.  The result is the concatenated list of
saved `(id, vector)` records. -/
def ingestTwoPhase (sources : List Shard) (dim batch_size count : Nat) : List (Nat × Row) :=
  let first_batch_rows := min batch_size count
  let p1 := ingest_vectors_streaming sources dim first_batch_rows batch_size 0
  let ingested_first := p1.length
  let remaining_rows := count - ingested_first
  if 0 < remaining_rows then
    p1 ++ ingest_vectors_streaming sources dim remaining_rows batch_size ingested_first
  else p1

/-- Instrumentation events of one `stream_shards` invocation: creating a
shard's memory map (`np.memmap`), yielding a batch view, and releasing the
map (`del mm`).  A shard is identified by its declared `start`. -/
inductive MapEvent where
  | mapShard (start : Nat)
  | yieldBatch (gstart : Nat)
  | unmapShard (start : Nat)
deriving DecidableEq

/-- The map/unmap/yield event trace of the `for s in sources` loop of
`stream_shards`, with the same branch structure as `streamShardsGo`:
when a shard is entered, `np.memmap` fires first, then every `yield` of the
inner while loop, then `del mm`, and only then does the loop advance to the
next shard. -/
def streamTraceGo (batch_size : Nat) : Nat → Nat → List Shard → List MapEvent
  | _, _, [] => []
  | to_skip, remaining, s :: rest =>
    if remaining = 0 then []
    else if s.rows.length ≤ to_skip then
      streamTraceGo batch_size (to_skip - s.rows.length) remaining rest
    else
      let shard_skip := to_skip
      let take_total := min (s.rows.length - shard_skip) remaining
      if take_total = 0 then streamTraceGo batch_size 0 remaining rest
      else
        MapEvent.mapShard s.start ::
          ((batchLoop batch_size (s.start + shard_skip)
              ((s.rows.drop shard_skip).take take_total)).map
            (fun p => MapEvent.yieldBatch p.1) ++
          (MapEvent.unmapShard s.start ::
            streamTraceGo batch_size 0 (remaining - take_total) rest))

/-- The event trace of a whole `stream_shards(sources, dim, batch_size,
start_offset, max_rows)` call (the early return for
`start_offset >= total_rows` produces no events at all). -/
def streamTrace (sources : List Shard) (dim batch_size start_offset : Nat)
    (max_rows : Option Nat) : List MapEvent :=
  let total_rows := (sources.map (fun s => s.rows.length)).sum
  if total_rows ≤ start_offset then []
  else
    streamTraceGo batch_size start_offset
      (max_rows.getD (total_rows - start_offset)) sources

/-- Trace checker: scans an event trace keeping the identity of the single
currently open map (`none` = no map open).  It returns `true` iff no map is
ever created while another is open, every yield happens under an open map,
every unmap releases exactly the open map, and no map is left open at the
end — i.e. at most one shard map is open at any instant. -/
def checkTrace : Option Nat → List MapEvent → Bool
  | none, [] => true
  | some _, [] => false
  | none, MapEvent.mapShard k :: es => checkTrace (some k) es
  | none, MapEvent.yieldBatch _ :: _ => false
  | none, MapEvent.unmapShard _ :: _ => false
  | some k, MapEvent.yieldBatch _ :: es => checkTrace (some k) es
  | some _, MapEvent.mapShard _ :: _ => false
  | some k, MapEvent.unmapShard k2 :: es => decide (k = k2) && checkTrace none es

/-- The per-shard loop of `resolve_dataset` (benchmark_arcadedb_msmarco.py:
125-131), over the shard files' byte sizes: for each size it computes
`rows = (st_size // 4) // dim` and assigns `start` as the running `total`.
It returns the `(start, count)` pairs of the catalog.  Note the source
performs no divisibility check and raises no error. -/
def resolveGo (dim : Nat) : Nat → List Nat → List (Nat × Nat)
  | _, [] => []
  | total, size :: rest =>
    let rows := size / 4 / dim
    (total, rows) :: resolveGo dim (total + rows) rest

/-- Catalog resolution of `resolve_dataset` restricted to its shard-counting
step: `resolve_shard_sources sizes dim` is the list of `(start, count)`
descriptors built from the shard files' sizes in shard order. -/
def resolve_shard_sources (sizes : List Nat) (dim : Nat) : List (Nat × Nat) :=
  resolveGo dim 0 sizes

/-- The spec-side description of the same computation, for comparison:
every shard's count is the floor `size / 4 / dim`. -/
def floorCounts (sizes : List Nat) (dim : Nat) : List Nat :=
  sizes.map (fun s => s / 4 / dim)

/-- Running starts: `startsFrom t [c₀, c₁, …] = [t, t+c₀, t+c₀+c₁, …]`. -/
def startsFrom : Nat → List Nat → List Nat
  | _, [] => []
  | t, c :: cs => t :: startsFrom (t + c) cs

/-- The first loop of `materialize_queries` (benchmark_arcadedb_msmarco.py:
164-170): for a query id, scan the shard list in order and stop (`break`) at
the first shard whose range `[start, start+count)` contains it. -/
def findShardFor (sources : List Shard) (qid : Nat) : Option Shard :=
  sources.find? (fun s => decide (s.start ≤ qid) && decide (qid < s.start + s.rows.length))

/-- `materialize_queries(sources, query_ids, dim)` (benchmark_arcadedb_msmarco
.py:159-180), embedded row by row: output row `qi` is the row
`mm[qid - start]` of the unique shard the first loop assigned `qid` to, and
stays uninitialized (`np.empty` garbage, embedded as `none`) when no shard's
range contains `qid`.  The second loop's per-shard grouping only changes the
order rows are copied in, not the final contents, because each `qi` receives
at most one assignment (`break` after the first matching shard). -/
def materialize_queries (sources : List Shard) (query_ids : List Nat) : List (Option Row) :=
  query_ids.map (fun qid => (findShardFor sources qid).bind (fun s => s.rows[qid - s.start]?))

/-- A ground-truth heap entry, exactly the Python tuple `(score, doc_id)`
pushed in `build_gt_sharded` (convert-msmacro-parquet-to-shards.py:177-179). -/
abbrev Entry := ℚ × Nat

/-- Python tuple order on `(score, doc_id)` entries: lexicographic —
first by score, then by doc id. -/
def entryLt (a b : Entry) : Prop :=
  a.1 < b.1 ∨ (a.1 = b.1 ∧ a.2 < b.2)

instance entryLtDecidable : DecidableRel entryLt := fun a b =>
  decidable_of_iff (a.1 < b.1 ∨ (a.1 = b.1 ∧ a.2 < b.2)) Iff.rfl

/-- The complement order used for Python's `heap.sort(reverse=True)`:
`entryGe a b` iff `a` is not lexicographically below `b`. -/
def entryGe (a b : Entry) : Prop := ¬ entryLt a b

instance entryGeDecidable : DecidableRel entryGe := fun a b =>
  inferInstanceAs (Decidable (¬ entryLt a b))

/-- Insert an entry into the ascending multiset representation of a heap
(the multiset effect of `heapq.heappush`). -/
def heapInsert (e : Entry) : List Entry → List Entry
  | [] => [e]
  | x :: xs => if entryLt e x then e :: x :: xs else x :: heapInsert e xs

/-- The multiset effect of `heapq.heappushpop(heap, e)`: if the heap is
non-empty and its minimum (`heap[0]`) is tuple-less-than `e`, the minimum is
popped and `e` inserted; otherwise the heap is unchanged (the pushed `e` is
popped right back). -/
def heappushpop (heap : List Entry) (e : Entry) : List Entry :=
  match heap with
  | [] => []
  | m :: rest => if entryLt m e then heapInsert e rest else m :: rest

/-- One candidate offer of `build_gt_sharded`'s inner loop
(convert-msmacro-parquet-to-shards.py:174-179): `heappush` while the heap is
below capacity `topk`, `heappushpop` once it is full. -/
def offerEntry (topk : Nat) (heap : List Entry) (e : Entry) : List Entry :=
  if heap.length < topk then heapInsert e heap else heappushpop heap e

/-- The batched similarity of `build_gt_sharded`: `sims = block @ queries.T`,
so a row's score against query `q` is the dot product. -/
def dot (a b : List ℚ) : ℚ := (List.zipWith (fun x y => x * y) a b).sum

/-- The scan of one shard for one query's heap (convert-msmacro-parquet-to-
shards.py:166-180): every row of the shard is offered as
`(score, doc_id = start + off + i)` in row order.  The `CHUNK`-sized slicing
of the source partitions the shard's rows in order and is elided because the
per-query offer sequence it produces is identical. -/
def scanShard (topk : Nat) (q : Row) (heap : List Entry) (s : Shard) : List Entry :=
  (List.enumFrom s.start s.rows).foldl
    (fun h p => offerEntry topk h (dot p.2 q, p.1)) heap

/-- One query's final heap after the full corpus stream of
`build_gt_sharded`: shards are scanned in catalog order starting from an
empty heap. -/
def gtHeapForQuery (shards : List Shard) (topk : Nat) (q : Row) : List Entry :=
  shards.foldl (scanShard topk q) []

/-- `heap.sort(reverse=True)` (convert-msmacro-parquet-to-shards.py:184):
sort the heap's entries descending in the tuple order.  With all entries
distinct (doc ids are distinct) the descending ordering is unique, so
insertion sort agrees with Python's sort. -/
def sortDescEntries (l : List Entry) : List Entry :=
  List.insertionSort entryGe l

/-- The `topk` list of the `GroundTruthEntry` emitted for one query
(convert-msmacro-parquet-to-shards.py:182-192): the sorted heap rendered as
`(doc_id, score)` objects, best first. -/
def gtTopkForQuery (shards : List Shard) (topk : Nat) (q : Row) : List (Nat × ℚ) :=
  (sortDescEntries (gtHeapForQuery shards topk q)).map (fun e => (e.2, e.1))

/-- recall@k of `search_index` (benchmark_arcadedb_msmarco.py:361-363):
`len(set(result_ids[:k]) & set(gt_list[:k])) / k`. -/
def recallAtK (k : Nat) (result_ids gt_list : List Nat) : ℚ :=
  (((result_ids.take k).toFinset ∩ (gt_list.take k).toFinset).card : ℚ) / (k : ℚ)

/-- The per-query loop of `search_index` (benchmark_arcadedb_msmarco.py:
331-375), embedded over an abstract backend `find` (the
`index.find_nearest…` call, which either returns the result ids or raises)
and the ground-truth table `gt` (`gt_full.get(qid)`).  The source has no
try/except around the backend call, so a raise propagates out of the whole
function: the embedding threads `Except` through the loop.  On success the
query contributes a recall only when its ground-truth list exists and is
non-empty (Python's `if not gt_list: continue` skips both `None` and `[]`). -/
def search_index (find : Nat → Except Unit (List Nat)) (gt : Nat → Option (List Nat))
    (k : Nat) : List Nat → Except Unit (List ℚ)
  | [] => Except.ok []
  | qid :: qs => do
    let result_ids ← find qid
    let rest ← search_index find gt k qs
    match gt qid with
    | none => pure rest
    | some [] => pure rest
    | some gt_list => pure (recallAtK k result_ids gt_list :: rest)

/-- A concrete backend for counterexamples/witnesses: raises on query 0,
returns `[qid]` otherwise. -/
def findFail0 : Nat → Except Unit (List Nat) :=
  fun q => if q = 0 then Except.error () else Except.ok [q]

/-- A concrete ground-truth table: every query id has ground truth `[qid]`. -/
def gtAll : Nat → Option (List Nat) := fun q => some [q]

/-- One recorded phase (`record` in benchmark_arcadedb_msmarco.py:465-473):
the `time_sec` / `rss_before_mb` / `rss_after_mb` fields every phase gets. -/
structure PhaseRec where
  time_sec : ℚ
  rss_before_mb : ℚ
  rss_after_mb : ℚ
deriving DecidableEq

/-- The phase state machine of `main` (benchmark_arcadedb_msmarco.py:
475-731), abstracted over each phase body's outcome (`Except.ok record` if
its `timed_section` body returned, `Except.error ()` if it raised).  Phases
run in order; each success appends its record to the `phases` dict; the
first raise stops the run (the `try/finally` only attempts a best-effort
final close, it catches nothing).  Returns the accumulated records and
whether the run reached the end of the phase list. -/
def runPhases : List (String × Except Unit PhaseRec) → (List (String × PhaseRec) × Bool)
  | [] => ([], true)
  | (n, Except.ok r) :: rest =>
    let res := runPhases rest
    ((n, r) :: res.1, res.2)
  | (_, Except.error _) :: _ => ([], false)

/-- True iff a phase outcome is a raise. -/
def isPhaseError : Except Unit PhaseRec → Bool
  | Except.error _ => true
  | Except.ok _ => false

/-- The results document of a run: `main` writes `results.json` (containing
the `phases` dict) only at benchmark_arcadedb_msmarco.py:731, *after* the
`try/finally` block, so the document exists iff no phase raised; an
exception propagates out of `main` past the write.  `none` = no document
written. -/
def writtenResults (l : List (String × Except Unit PhaseRec)) :
    Option (List (String × PhaseRec)) :=
  let res := runPhases l
  if res.2 then some res.1 else none

/-- The RSS bookkeeping of `timed_section` (benchmark_arcadedb_msmarco.py:
57-66) across a run: `rss_mb()` is sampled freshly at the start and at the
end of every phase body, so a run of `numPhases` phases consumes the sample
stream `rss` at indices `0,1,2,3,…` — phase `i` records
`rss_before_mb = rss (2*i)` and `rss_after_mb = rss (2*i+1)`. -/
def runPhaseSamples (rss : Nat → ℚ) (numPhases : Nat) : List PhaseRec :=
  (List.range numPhases).map (fun i => ⟨0, rss (2 * i), rss (2 * i + 1)⟩)

/-- Checks the chain condition of the claim: every phase's `rss_before_mb`
equals the immediately preceding phase's `rss_after_mb`. -/
def rssChainOk : List PhaseRec → Bool
  | [] => true
  | [_] => true
  | a :: b :: rest =>
    decide (a.rss_after_mb = b.rss_before_mb) && rssChainOk (b :: rest)

/-! ## Lemmas about the streaming reader -/

theorem streamPairs_nil : streamPairs [] = [] := rfl

theorem streamPairs_cons (p : Nat × List Row) (l : List (Nat × List Row)) :
    streamPairs (p :: l) = List.enumFrom p.1 p.2 ++ streamPairs l := rfl

theorem streamPairs_append (l1 l2 : List (Nat × List Row)) :
    streamPairs (l1 ++ l2) = streamPairs l1 ++ streamPairs l2 := by
  simp [streamPairs]

theorem streamPairs_map_snd (l : List (Nat × List Row)) :
    (streamPairs l).map Prod.snd = (l.map Prod.snd).flatten := by
  induction l with
  | nil => rfl
  | cons p l ih => simp [streamPairs_cons, ih]

theorem corpusOf_nil : corpusOf [] = [] := rfl

theorem corpusOf_cons (s : Shard) (rest : List Shard) :
    corpusOf (s :: rest) = s.rows ++ corpusOf rest := by
  simp [corpusOf]

theorem corpusOf_length (sources : List Shard) :
    (corpusOf sources).length = (sources.map (fun s => s.rows.length)).sum := by
  simp only [corpusOf, List.length_flatten, List.map_map]
  rfl

theorem enumFrom_take_drop {α : Type} (k n : Nat) (l : List α) :
    List.enumFrom n (l.take k) ++ List.enumFrom (n + k) (l.drop k) = List.enumFrom n l := by
  by_cases h : k ≤ l.length
  · conv_rhs => rw [← List.take_append_drop k l]
    rw [List.enumFrom_append, List.length_take, Nat.min_eq_left h]
  · push_neg at h
    rw [List.drop_eq_nil_of_le h.le, List.take_of_length_le h.le, List.enumFrom_nil,
      List.append_nil]

theorem batchLoop_pairs_fuel (batch_size : Nat) (hbs : 1 ≤ batch_size) :
    ∀ (fuel : Nat) (l : List Row) (g : Nat), l.length ≤ fuel →
      streamPairs (batchLoop batch_size g l) = List.enumFrom g l := by
  intro fuel
  induction fuel with
  | zero =>
    intro l g h
    have hl : l = [] := List.eq_nil_of_length_eq_zero (Nat.le_zero.mp h)
    subst hl
    simp [batchLoop, streamPairs_nil]
  | succ fl ih =>
    intro l g h
    match l with
    | [] => simp [batchLoop, streamPairs_nil]
    | x :: xs =>
      have hx : xs.length ≤ fl := by
        simp only [List.length_cons] at h
        omega
      have hd : (xs.drop (batch_size - 1)).length ≤ fl := by
        rw [List.length_drop]
        omega
      rw [batchLoop, streamPairs_cons]
      rw [ih (xs.drop (batch_size - 1)) (g + batch_size) hd]
      have hgb : g + batch_size = (g + 1) + (batch_size - 1) := by omega
      rw [hgb]
      rw [show (g, x :: xs.take (batch_size - 1)).1 = g from rfl,
        show (g, x :: xs.take (batch_size - 1)).2 = x :: xs.take (batch_size - 1) from rfl]
      rw [List.enumFrom_cons, List.enumFrom_cons]
      rw [List.cons_append, enumFrom_take_drop]

theorem batchLoop_pairs (batch_size : Nat) (hbs : 1 ≤ batch_size) (g : Nat) (l : List Row) :
    streamPairs (batchLoop batch_size g l) = List.enumFrom g l :=
  batchLoop_pairs_fuel batch_size hbs l.length l g le_rfl

theorem streamShardsGo_pairs (batch_size : Nat) (hbs : 1 ≤ batch_size) :
    ∀ (sources : List Shard) (n to_skip remaining : Nat),
      contiguousFrom n sources = true →
      streamPairs (streamShardsGo batch_size to_skip remaining sources) =
        List.enumFrom (n + to_skip) (((corpusOf sources).drop to_skip).take remaining) := by
  intro sources
  induction sources with
  | nil =>
    intro n ts r _
    simp [streamShardsGo, streamPairs_nil, corpusOf_nil]
  | cons s rest ih =>
    intro n ts r hc
    rw [contiguousFrom, Bool.and_eq_true, decide_eq_true_eq] at hc
    obtain ⟨hstart, hcont⟩ := hc
    rw [corpusOf_cons]
    rw [streamShardsGo]
    by_cases hr : r = 0
    · subst hr
      simp [streamPairs_nil]
    · rw [if_neg hr]
      by_cases hskip : s.rows.length ≤ ts
      · rw [if_pos hskip, ih (n + s.rows.length) (ts - s.rows.length) r hcont]
        rw [List.drop_append_eq_append_drop, List.drop_eq_nil_of_le hskip, List.nil_append]
        have : n + s.rows.length + (ts - s.rows.length) = n + ts := by omega
        rw [this]
      · rw [if_neg hskip]
        push_neg at hskip
        have htt : ¬ (min (s.rows.length - ts) r = 0) := by
          rw [Nat.min_eq_zero_iff]; omega
        simp only [if_neg htt]
        rw [streamPairs_append, batchLoop_pairs batch_size hbs,
          ih (n + s.rows.length) 0 (r - min (s.rows.length - ts) r) hcont]
        rw [List.drop_zero, hstart]
        rw [List.drop_append_eq_append_drop]
        rw [show ts - s.rows.length = 0 from by omega, List.drop_zero]
        rw [List.take_append_eq_append_take, List.length_drop]
        by_cases hcase : r ≤ s.rows.length - ts
        · rw [Nat.min_eq_right hcase]
          rw [show r - (s.rows.length - ts) = 0 from by omega, List.take_zero,
            List.append_nil]
          rw [show r - r = 0 from by omega, List.take_zero, List.enumFrom_nil,
            List.append_nil]
        · push_neg at hcase
          rw [Nat.min_eq_left hcase.le]
          have hA1 : (s.rows.drop ts).length ≤ r := by
            rw [List.length_drop]
            exact hcase.le
          have hA2 : (s.rows.drop ts).length ≤ s.rows.length - ts :=
            le_of_eq (List.length_drop ts s.rows)
          rw [List.take_of_length_le hA1, List.take_of_length_le hA2]
          rw [List.enumFrom_append, List.length_drop]
          have hoff : n + ts + (s.rows.length - ts) = n + s.rows.length + 0 := by omega
          rw [hoff]

theorem stream_shards_pairs (sources : List Shard) (dim batch_size start_offset : Nat)
    (max_rows : Option Nat) (hbs : 1 ≤ batch_size) (hc : contiguousFrom 0 sources = true) :
    streamPairs (stream_shards sources dim batch_size start_offset max_rows) =
      List.enumFrom start_offset
        (((corpusOf sources).drop start_offset).take
          (max_rows.getD ((corpusOf sources).length - start_offset))) := by
  rw [stream_shards]
  by_cases hg : (sources.map (fun s => s.rows.length)).sum ≤ start_offset
  · rw [if_pos hg, streamPairs_nil]
    rw [List.drop_eq_nil_of_le (by rw [corpusOf_length]; exact hg)]
    simp
  · rw [if_neg hg]
    have h := streamShardsGo_pairs batch_size hbs sources 0 start_offset
      (max_rows.getD ((sources.map (fun s => s.rows.length)).sum - start_offset)) hc
    rw [Nat.zero_add] at h
    rw [h, corpusOf_length]

/-- C1: for every shard list with contiguous non-overlapping ranges, every
`dim ≥ 1` and every `batch_size ≥ 1`, concatenating the batches yielded by
`stream(shards, dim, batch_size)` with `start_offset = 0` and
`max_rows = None` reproduces the full corpus rows in global-index order,
with no row missing, duplicated, or reordered. -/
theorem stream_concat_batches_eq_corpus (sources : List Shard) (dim batch_size : Nat)
    (hc : contiguousFrom 0 sources = true) (hdim : 1 ≤ dim) (hbs : 1 ≤ batch_size) :
    ((stream_shards sources dim batch_size 0 none).map Prod.snd).flatten =
      corpusOf sources := by
  have h := stream_shards_pairs sources dim batch_size 0 none hbs hc
  calc ((stream_shards sources dim batch_size 0 none).map Prod.snd).flatten
      = (streamPairs (stream_shards sources dim batch_size 0 none)).map Prod.snd :=
        (streamPairs_map_snd _).symm
    _ = (List.enumFrom 0 (corpusOf sources)).map Prod.snd := by
        rw [h]
        simp [List.take_of_length_le]
    _ = corpusOf sources := List.enumFrom_map_snd 0 _

/-- Witness for C1: a concrete two-shard corpus at `dim = 1`,
`batch_size = 2`: the concatenated batches are exactly the corpus. -/
theorem stream_concat_batches_eq_corpus_witness :
    ((stream_shards [⟨0, [[1], [2]]⟩, ⟨2, [[3]]⟩] 1 2 0 none).map Prod.snd).flatten =
      [[(1 : ℚ)], [2], [3]] := by
  rw [stream_concat_batches_eq_corpus [⟨0, [[1], [2]]⟩, ⟨2, [[3]]⟩] 1 2
    (by decide) (by decide) (by decide)]
  decide

/-- C10: for every `count` with `0 ≤ count ≤ total_rows`, the orchestrator's
two-sub-phase ingest (first `ingest_vectors_streaming` with
`max_rows = min(batch_size, count)` at `start_offset = 0`, then, when rows
remain, a second call with `max_rows = count - first` at
`start_offset = first`) ingests each global row index in `[0, count)`
exactly once, and each stored record's `id` field equals that row's global
row index — i.e. the saved records are exactly
`[(0, row 0), (1, row 1), …, (count-1, row (count-1))]`. -/
theorem ingest_two_phase_covers_rows_once (sources : List Shard) (dim batch_size count : Nat)
    (hc : contiguousFrom 0 sources = true) (hbs : 1 ≤ batch_size) (hdim : 1 ≤ dim)
    (hcount : count ≤ (corpusOf sources).length) :
    ingestTwoPhase sources dim batch_size count =
      List.enumFrom 0 ((corpusOf sources).take count) := by
  have hp1 : ingest_vectors_streaming sources dim (min batch_size count) batch_size 0 =
      List.enumFrom 0 ((corpusOf sources).take (min batch_size count)) := by
    rw [ingest_vectors_streaming,
      stream_shards_pairs sources dim batch_size 0 (some (min batch_size count)) hbs hc]
    rw [List.drop_zero]
    rfl
  have hlen1 : (ingest_vectors_streaming sources dim (min batch_size count) batch_size 0).length =
      min batch_size count := by
    rw [hp1, List.enumFrom_length, List.length_take]
    have : min batch_size count ≤ (corpusOf sources).length :=
      le_trans (Nat.min_le_right _ _) hcount
    omega
  rw [ingestTwoPhase]
  simp only [hlen1]
  by_cases hrem : 0 < count - min batch_size count
  · rw [if_pos hrem]
    have hfirst : min batch_size count < count := by omega
    have hp2 : ingest_vectors_streaming sources dim (count - min batch_size count)
        batch_size (min batch_size count) =
        List.enumFrom (min batch_size count)
          (((corpusOf sources).drop (min batch_size count)).take
            (count - min batch_size count)) := by
      rw [ingest_vectors_streaming,
        stream_shards_pairs sources dim batch_size (min batch_size count)
          (some (count - min batch_size count)) hbs hc]
      rfl
    rw [hp1, hp2]
    rw [show count = min batch_size count + (count - min batch_size count) from by omega,
      List.take_add, List.enumFrom_append, List.length_take]
    rw [Nat.min_eq_left (le_trans (le_of_lt hfirst) hcount), Nat.zero_add]
    rw [show min batch_size count + (count - min batch_size count) = count from by omega]
  · rw [if_neg hrem]
    rw [hp1]
    rw [show min batch_size count = count from by omega]

/-- Witness for C10: a concrete two-shard corpus of three rows ingested
with `batch_size = 2` and `count = 3`; the stored records are
`(0, row 0), (1, row 1), (2, row 2)`. -/
theorem ingest_two_phase_covers_rows_once_witness :
    ingestTwoPhase [⟨0, [[1], [2]]⟩, ⟨2, [[3]]⟩] 1 2 3 =
      [(0, [(1 : ℚ)]), (1, [2]), (2, [3])] := by
  rw [ingest_two_phase_covers_rows_once [⟨0, [[1], [2]]⟩, ⟨2, [[3]]⟩] 1 2 3
    (by decide) (by decide) (by decide) (by decide)]
  decide

/-! ## Lemmas about the map/unmap trace (C4) -/

theorem checkTrace_yields (k : Nat) :
    ∀ (ys : List MapEvent), (∀ e ∈ ys, ∃ g, e = MapEvent.yieldBatch g) →
      ∀ (tail : List MapEvent), checkTrace (some k) (ys ++ tail) = checkTrace (some k) tail := by
  intro ys
  induction ys with
  | nil => intro _ tail; rfl
  | cons y ys ih =>
    intro hy tail
    obtain ⟨g, hg⟩ := hy y (List.mem_cons_self y ys)
    subst hg
    rw [List.cons_append, checkTrace]
    exact ih (fun e he => hy e (List.mem_cons_of_mem _ he)) tail

theorem streamTraceGo_check (batch_size : Nat) :
    ∀ (sources : List Shard) (to_skip remaining : Nat),
      checkTrace none (streamTraceGo batch_size to_skip remaining sources) = true := by
  intro sources
  induction sources with
  | nil => intro ts r; rfl
  | cons s rest ih =>
    intro ts r
    rw [streamTraceGo]
    by_cases hr : r = 0
    · rw [if_pos hr]; rfl
    · rw [if_neg hr]
      by_cases hskip : s.rows.length ≤ ts
      · rw [if_pos hskip]; exact ih _ _
      · rw [if_neg hskip]
        by_cases htt : min (s.rows.length - ts) r = 0
        · simp only [if_pos htt]; exact ih _ _
        · simp only [if_neg htt]
          rw [checkTrace]
          rw [checkTrace_yields s.start _
            (by intro e he
                obtain ⟨p, _, hp⟩ := List.mem_map.mp he
                exact ⟨p.1, hp.symm⟩)]
          rw [checkTrace]
          rw [show decide (s.start = s.start) = true from by simp, Bool.true_and]
          exact ih _ _

/-- C4: during any single invocation of `stream(shards, dim, batch_size,
start_offset, max_rows)`, at most one shard's memory map is open at any
instant: each shard's map is created only after the previous shard's map has
been released, and it is released before the reader advances to the next
shard.  Formally, the generator's map/yield/unmap event trace passes
`checkTrace`, which rejects any trace in which a map is created while
another is open, or a shard is left mapped when the stream moves on or
ends. -/
theorem stream_trace_at_most_one_map_open (sources : List Shard)
    (dim batch_size start_offset : Nat) (max_rows : Option Nat) (hbs : 1 ≤ batch_size) :
    checkTrace none (streamTrace sources dim batch_size start_offset max_rows) = true := by
  rw [streamTrace]
  by_cases hg : (sources.map (fun s => s.rows.length)).sum ≤ start_offset
  · rw [if_pos hg]; rfl
  · rw [if_neg hg]
    exact streamTraceGo_check batch_size sources _ _

/-- Witness for C4: the trace of streaming a concrete two-shard corpus with
`batch_size = 1` passes the single-open-map check. -/
theorem stream_trace_at_most_one_map_open_witness :
    checkTrace none (streamTrace [⟨0, [[1], [2]]⟩, ⟨2, [[3]]⟩] 1 1 0 none) = true :=
  stream_trace_at_most_one_map_open [⟨0, [[1], [2]]⟩, ⟨2, [[3]]⟩] 1 1 0 none (by decide)

/-! ## Catalog resolution (C5) -/

/-- Counterexample to C5: a single shard file of 13 bytes at `dim = 3`.
`13` is not divisible by `dim * 4 = 12`, yet `resolve_dataset` raises no
`CorruptShard` (or any other) error: it silently floors,
`rows = (13 // 4) // 3 = 1`, and resolution succeeds with the descriptor
`(start 0, count 1)`. -/
theorem resolve_nondivisible_size_no_error :
    resolve_shard_sources [13] 3 = [(0, 1)] ∧ 13 % (3 * 4) ≠ 0 := by
  decide

/-- C5 as amended: for every shard file, the row count is computed as
`file_size_bytes // 4 // dim` by integer division, `start` is the running
sum of the prior shards' counts, and resolution always succeeds — a file
size that is not divisible by `dim * 4` is silently floored, with no
`CorruptShard` error raised. -/
theorem resolve_counts_floor_division (sizes : List Nat) (dim : Nat) :
    resolve_shard_sources sizes dim =
      (startsFrom 0 (floorCounts sizes dim)).zip (floorCounts sizes dim) := by
  rw [resolve_shard_sources]
  suffices h : ∀ (t : Nat) (l : List Nat),
      resolveGo dim t l = (startsFrom t (floorCounts l dim)).zip (floorCounts l dim) from
    h 0 sizes
  intro t l
  induction l generalizing t with
  | nil => rfl
  | cons size rest ih =>
    rw [resolveGo, floorCounts, List.map_cons, startsFrom, List.zip_cons_cons]
    rw [ih (t + size / 4 / dim)]
    rfl

/-! ## Query materializer (C6) -/

/-- Counterexample to C6: one shard holding rows `[0, 2)`, queried with the
out-of-range id `5`.  The claim requires `materialize_queries` to fail with
`QueryOutOfRange` before any mapping; instead the source raises nothing and
returns normally — the out-of-range id is silently skipped by the
assignment loop (no shard range contains it, so the `break` never fires)
and its output row is left uninitialized `np.empty` garbage (embedded as
`none`). -/
theorem materialize_out_of_range_silently_none :
    materialize_queries [⟨0, [[1], [2]]⟩] [5] = [none] := by
  decide

/-- C6 as amended: `materialize_queries` never fails; over a contiguous
catalog it returns, for each requested id positionally, the corpus row at
that global index when the id is in range, and an uninitialized row
(`none`) when the id is out of range — no error is raised in either case. -/
theorem materialize_eq_corpus_lookup (sources : List Shard) (query_ids : List Nat)
    (hc : contiguousFrom 0 sources = true) :
    materialize_queries sources query_ids =
      query_ids.map (fun q => (corpusOf sources)[q]?) := by
  rw [materialize_queries]
  apply List.map_congr_left
  intro q _
  suffices h : ∀ (srcs : List Shard) (n : Nat), contiguousFrom n srcs = true →
      ((findShardFor srcs q).bind (fun s => s.rows[q - s.start]?)) =
        if n ≤ q then (corpusOf srcs)[q - n]? else none by
    have := h sources 0 hc
    rw [if_pos (Nat.zero_le q), Nat.sub_zero] at this
    exact this
  intro srcs
  induction srcs with
  | nil =>
    intro n _
    rw [corpusOf_nil, findShardFor, List.find?_nil]
    simp
  | cons s rest ih =>
    intro n hcn
    rw [contiguousFrom, Bool.and_eq_true, decide_eq_true_eq] at hcn
    obtain ⟨hstart, hcont⟩ := hcn
    rw [corpusOf_cons, findShardFor, List.find?_cons]
    by_cases hin : s.start ≤ q ∧ q < s.start + s.rows.length
    · rw [show (decide (s.start ≤ q) && decide (q < s.start + s.rows.length)) = true from by
        simp [hin.1, hin.2]]
      rw [Option.some_bind]
      rw [hstart] at hin
      rw [if_pos hin.1, hstart]
      exact (List.getElem?_append_left (by omega)).symm
    · rw [show (decide (s.start ≤ q) && decide (q < s.start + s.rows.length)) = false from by
        rw [Bool.and_eq_false_iff]
        rcases Decidable.not_and_iff_or_not.mp hin with h | h
        · exact Or.inl (by simpa using h)
        · exact Or.inr (by simpa using h)]
      rw [show List.find? (fun s => decide (s.start ≤ q) &&
          decide (q < s.start + s.rows.length)) rest = findShardFor rest q from rfl]
      rw [ih (n + s.rows.length) hcont]
      rw [hstart] at hin
      by_cases hq : n ≤ q
      · have hge : n + s.rows.length ≤ q := by omega
        rw [if_pos hge, if_pos hq]
        rw [List.getElem?_append_right (by omega)]
        congr 1
        omega
      · rw [if_neg (by omega), if_neg hq]

/-- Witness for the amended C6: a concrete one-shard catalog queried with an
in-range and an out-of-range id returns the corpus row and `none`
respectively. -/
theorem materialize_eq_corpus_lookup_witness :
    materialize_queries [⟨0, [[1], [2]]⟩] [1, 5] = [some [(2 : ℚ)], none] := by
  rw [materialize_eq_corpus_lookup [⟨0, [[1], [2]]⟩] [1, 5] (by decide)]
  decide

/-! ## Search phase failure handling (C7) -/

/-- Counterexample to C7: two queries `[0, 1]`, both with ground truth
(`gtAll`), where the backend raises on query 0 (`findFail0`).  The claim
requires the phase to continue, recording query 0 as a zero recall
contribution and still processing query 1; instead `search_index` has no
per-query exception handling, so the raise propagates and the whole phase
aborts with no result. -/
theorem search_single_failure_aborts_phase :
    search_index findFail0 gtAll 1 [0, 1] = Except.error () := rfl

/-- C7 as amended: if the backend's search call raises for any single query
in the list, the whole search phase aborts — the exception propagates out
of `search_index` (there is no per-query zero-recall recording or
skipping on failure). -/
theorem search_error_propagates (find : Nat → Except Unit (List Nat))
    (gt : Nat → Option (List Nat)) (k : Nat) (qids : List Nat) (q : Nat)
    (hq : q ∈ qids) (hf : find q = Except.error ()) :
    search_index find gt k qids = Except.error () := by
  induction qids with
  | nil => cases hq
  | cons x xs ih =>
    rw [search_index]
    rcases List.mem_cons.mp hq with hqx | hqxs
    · subst hqx
      rw [hf]
      rfl
    · cases hfx : find x with
      | error e => cases e; rfl
      | ok ids =>
        simp only [ih hqxs]
        rfl

/-- Witness for the amended C7: a failing query (`0`) in the middle of a
concrete query list aborts the phase. -/
theorem search_error_propagates_witness :
    search_index findFail0 gtAll 1 [5, 0, 7] = Except.error () :=
  search_error_propagates findFail0 gtAll 1 [5, 0, 7] 0 (by decide) rfl

/-! ## Partial results on a failed run (C8) -/

/-- Counterexample to C8: a run whose first phase succeeds (so the phases
dict is non-empty) and whose second phase raises.  The claim requires the
run to still write a results document containing the accumulated phase
records; instead `main` writes `results.json` only after the whole
`try/finally` completes, the exception propagates past the write, and no
document is produced — even though one phase record had been accumulated. -/
theorem failed_run_writes_no_results :
    writtenResults [("load_queries", Except.ok ⟨1, 2, 3⟩),
        ("create_index", Except.error ())] = none ∧
      (runPhases [("load_queries", Except.ok ⟨1, 2, 3⟩),
        ("create_index", Except.error ())]).1 = [("load_queries", ⟨1, 2, 3⟩)] := by
  constructor
  · rfl
  · rfl

/-- C8 as amended: a benchmark run writes a results document iff no phase
raised; any phase failure (even after the phases dictionary is non-empty)
means no results document is written and the accumulated partial phase
records are lost. -/
theorem results_written_iff_all_phases_ok (l : List (String × Except Unit PhaseRec)) :
    writtenResults l = none ↔ l.any (fun p => isPhaseError p.2) = true := by
  induction l with
  | nil => simp [writtenResults, runPhases, isPhaseError]
  | cons p rest ih =>
    obtain ⟨n, out⟩ := p
    cases out with
    | ok r =>
      rw [List.any_cons]
      rw [show isPhaseError (Except.ok r) = false from rfl, Bool.false_or]
      rw [← ih]
      rw [writtenResults, writtenResults, runPhases]
      by_cases hdone : (runPhases rest).2 = true
      · rw [hdone]
        simp
      · rw [Bool.not_eq_true] at hdone
        rw [hdone]
        simp
    | error e =>
      cases e
      rw [List.any_cons]
      rw [show isPhaseError (Except.error ()) = true from rfl, Bool.true_or]
      constructor
      · intro _; rfl
      · intro _; rfl

/-! ## RSS sampling across phases (C9) -/

/-- Counterexample to C9: a sample stream in which the process RSS changes
between the end of one phase and the start of the next (here `rss n = n`).
The recorded phases are `⟨0, rss 0, rss 1⟩, ⟨0, rss 2, rss 3⟩`: the second
phase's `rss_before_mb` is `2`, the first phase's `rss_after_mb` is `1`, and
the claimed chain equality fails — `timed_section` takes two fresh
`rss_mb()` samples per phase and never carries the previous phase's end
sample over. -/
theorem rss_chain_broken_example :
    rssChainOk (runPhaseSamples (fun n => (n : ℚ)) 2) = false := by
  decide

/-- C9 as amended: each phase's `rss_before_mb` and `rss_after_mb` are
independent fresh samples (phase `i` records samples `2i` and `2i+1` of the
run's sampling sequence), so the chain equality of consecutive phases holds
iff the process RSS did not change between each phase's last sample and the
next phase's first sample. -/
theorem rss_chain_ok_iff_samples_unchanged (rss : Nat → ℚ) (numPhases : Nat) :
    rssChainOk (runPhaseSamples rss numPhases) = true ↔
      ∀ i, i + 1 < numPhases → rss (2 * i + 1) = rss (2 * (i + 1)) := by
  suffices h : ∀ (len a : Nat),
      rssChainOk ((List.range' a len).map
          (fun i => (⟨0, rss (2 * i), rss (2 * i + 1)⟩ : PhaseRec))) = true ↔
        ∀ i, a ≤ i → i + 1 < a + len → rss (2 * i + 1) = rss (2 * (i + 1)) by
    rw [runPhaseSamples, List.range_eq_range']
    rw [h numPhases 0]
    constructor
    · intro hh i hi
      exact hh i (Nat.zero_le i) (by omega)
    · intro hh i _ hi
      exact hh i (by omega)
  intro len
  induction len with
  | zero =>
    intro a
    constructor
    · intro _ i hai hi
      omega
    · intro _
      rfl
  | succ m ih =>
    intro a
    cases m with
    | zero =>
      constructor
      · intro _ i hai hi
        omega
      · intro _
        rfl
    | succ mm =>
      have hstep : rssChainOk ((List.range' a (mm + 1 + 1)).map
            (fun i => (⟨0, rss (2 * i), rss (2 * i + 1)⟩ : PhaseRec))) =
          (decide (rss (2 * a + 1) = rss (2 * (a + 1))) &&
            rssChainOk ((List.range' (a + 1) (mm + 1)).map
              (fun i => (⟨0, rss (2 * i), rss (2 * i + 1)⟩ : PhaseRec)))) := rfl
      rw [hstep, Bool.and_eq_true, decide_eq_true_eq, ih (a + 1)]
      constructor
      · rintro ⟨hhead, htail⟩ i hai hi
        by_cases hia : i = a
        · subst hia
          exact hhead
        · exact htail i (by omega) (by omega)
      · intro hh
        refine ⟨hh a le_rfl (by omega), ?_⟩
        intro i hai hi
        exact hh i (by omega) (by omega)

/-! ## The bounded top-k heap (C2) -/

theorem entryLt_asymm {a b : Entry} (h : entryLt a b) : ¬ entryLt b a := by
  rcases h with h1 | ⟨h1, h2⟩
  · rintro (g1 | ⟨g1, g2⟩)
    · exact absurd g1 (lt_asymm h1)
    · rw [g1] at h1
      exact lt_irrefl _ h1
  · rintro (g1 | ⟨g1, g2⟩)
    · rw [h1] at g1
      exact lt_irrefl _ g1
    · omega

theorem entryLt_irrefl (a : Entry) : ¬ entryLt a a :=
  fun h => entryLt_asymm h h

theorem entryLt_trans {a b c : Entry} (hab : entryLt a b) (hbc : entryLt b c) :
    entryLt a c := by
  rcases hab with h1 | ⟨h1, h2⟩ <;> rcases hbc with g1 | ⟨g1, g2⟩
  · exact Or.inl (lt_trans h1 g1)
  · exact Or.inl (g1 ▸ h1)
  · exact Or.inl (h1 ▸ g1)
  · exact Or.inr ⟨h1.trans g1, lt_trans h2 g2⟩

theorem entryLt_trichotomy (a b : Entry) : entryLt a b ∨ a = b ∨ entryLt b a := by
  rcases lt_trichotomy a.1 b.1 with h | h | h
  · exact Or.inl (Or.inl h)
  · rcases Nat.lt_trichotomy a.2 b.2 with h2 | h2 | h2
    · exact Or.inl (Or.inr ⟨h, h2⟩)
    · exact Or.inr (Or.inl (Prod.ext h h2))
    · exact Or.inr (Or.inr (Or.inr ⟨h.symm, h2⟩))
  · exact Or.inr (Or.inr (Or.inl h))

instance : IsTotal Entry entryGe :=
  ⟨fun a b => by
    rcases entryLt_trichotomy a b with h | h | h
    · exact Or.inr (entryLt_asymm h)
    · subst h
      exact Or.inl (entryLt_irrefl a)
    · exact Or.inl (entryLt_asymm h)⟩

instance : IsTrans Entry entryGe :=
  ⟨fun a b c hab hbc => by
    intro hac
    rcases entryLt_trichotomy a b with h | h | h
    · exact hab h
    · subst h
      exact hbc hac
    · rcases entryLt_trichotomy b c with g | g | g
      · exact hbc g
      · subst g
        exact hab hac
      · exact absurd (entryLt_trans g h) (entryLt_asymm hac)⟩

theorem mem_heapInsert {x e : Entry} : ∀ {l : List Entry},
    x ∈ heapInsert e l ↔ x = e ∨ x ∈ l := by
  intro l
  induction l with
  | nil => simp [heapInsert]
  | cons y ys ih =>
    rw [heapInsert]
    by_cases h : entryLt e y
    · rw [if_pos h]
      simp
    · rw [if_neg h]
      rw [List.mem_cons, ih, List.mem_cons]
      tauto

theorem perm_heapInsert (e : Entry) :
    ∀ (l : List Entry), List.Perm (heapInsert e l) (e :: l) := by
  intro l
  induction l with
  | nil => exact List.Perm.refl _
  | cons y ys ih =>
    rw [heapInsert]
    by_cases h : entryLt e y
    · rw [if_pos h]
    · rw [if_neg h]
      exact List.Perm.trans (List.Perm.cons y ih) (List.Perm.swap e y ys)

/-- Counterexample to C2: a full heap of capacity `k = 1` holding the entry
`(score 0, doc_id 0)`, offered the candidate `(score 0, doc_id 5)` whose
score *equals* the current minimum's score.  The claim says such a
candidate never displaces the minimum; in the source,
`heapq.heappushpop(heap, (score, doc_id))` compares the whole Python tuples,
`(0, 0) < (0, 5)` holds by the doc-id tie-break, and the minimum *is*
displaced. -/
theorem offer_equal_score_displaces_min :
    offerEntry 1 [((0 : ℚ), 0)] ((0 : ℚ), 5) = [((0 : ℚ), 5)] ∧
      ((0 : ℚ), 0) ∉ offerEntry 1 [((0 : ℚ), 0)] ((0 : ℚ), 5) := by
  decide

/-- C2 as amended: once the heap holds `k` entries, offering a candidate
displaces the heap's current minimum if and only if the candidate's
`(score, doc_id)` tuple is lexicographically strictly greater than the
minimum's tuple — i.e. its score is strictly greater, *or* its score is
equal and its doc id is strictly greater.  (An equal-score candidate with a
larger doc id does displace the minimum; one with a smaller doc id does
not.) -/
theorem offer_full_displaces_iff_lex_gt (k : Nat) (m e : Entry) (rest : List Entry)
    (hlen : (m :: rest).length = k) (hmin : ∀ x ∈ rest, ¬ entryLt x m)
    (hm : m ∉ rest) (hme : m ≠ e) :
    (m ∉ offerEntry k (m :: rest) e) ↔ entryLt m e := by
  rw [offerEntry, if_neg (by rw [hlen]; exact lt_irrefl k)]
  rw [heappushpop]
  by_cases h : entryLt m e
  · rw [if_pos h]
    constructor
    · intro _
      exact h
    · intro _
      rw [mem_heapInsert]
      rintro (heq | hmem)
      · exact hme heq
      · exact hm hmem
  · rw [if_neg h]
    constructor
    · intro hnot
      exact absurd (List.mem_cons_self m rest) hnot
    · intro hlt
      exact absurd hlt h

/-- Witness for the amended C2: a concrete full heap of capacity 1 and a
strictly better candidate. -/
theorem offer_full_displaces_iff_lex_gt_witness :
    (((0 : ℚ), 0) ∉ offerEntry 1 [((0 : ℚ), 0)] ((1 : ℚ), 3)) ↔
      entryLt ((0 : ℚ), 0) ((1 : ℚ), 3) :=
  offer_full_displaces_iff_lex_gt 1 ((0 : ℚ), 0) ((1 : ℚ), 3) []
    rfl (by intro x hx; cases hx) (by intro hx; cases hx) (by decide)

/-! ## Ground-truth engine tie ordering (C3) -/

theorem offerEntry_ids_invariant (topk bound : Nat) (hp : List Entry) (sc : ℚ)
    (hnodup : (hp.map Prod.snd).Nodup) (hbound : ∀ x ∈ hp, x.2 < bound) :
    ((offerEntry topk hp (sc, bound)).map Prod.snd).Nodup ∧
      ∀ x ∈ offerEntry topk hp (sc, bound), x.2 < bound + 1 := by
  have hfresh : ∀ (l : List Entry), (∀ x ∈ l, x.2 < bound) → (l.map Prod.snd).Nodup →
      (((heapInsert (sc, bound) l).map Prod.snd).Nodup ∧
        ∀ x ∈ heapInsert (sc, bound) l, x.2 < bound + 1) := by
    intro l hb hn
    constructor
    · rw [(List.Perm.map Prod.snd (perm_heapInsert (sc, bound) l)).nodup_iff]
      rw [List.map_cons, List.nodup_cons]
      refine ⟨?_, hn⟩
      intro hmem
      obtain ⟨x, hxl, hx2⟩ := List.mem_map.mp hmem
      exact absurd hx2 (Nat.ne_of_lt (hb x hxl))
    · intro x hx
      rcases mem_heapInsert.mp hx with heq | hmem
      · subst heq
        omega
      · have := hb x hmem
        omega
  rw [offerEntry]
  by_cases hfull : hp.length < topk
  · rw [if_pos hfull]
    exact hfresh hp hbound hnodup
  · rw [if_neg hfull]
    cases hp with
    | nil =>
      refine ⟨List.nodup_nil, ?_⟩
      intro x hx
      cases hx
    | cons m rest =>
      rw [heappushpop]
      by_cases hlt : entryLt m (sc, bound)
      · rw [if_pos hlt]
        rw [List.map_cons, List.nodup_cons] at hnodup
        exact hfresh rest (fun x hx => hbound x (List.mem_cons_of_mem _ hx)) hnodup.2
      · rw [if_neg hlt]
        refine ⟨hnodup, ?_⟩
        intro x hx
        have := hbound x hx
        omega

theorem scan_rows_ids_invariant (topk : Nat) (q : Row) :
    ∀ (rows : List Row) (n : Nat) (hp : List Entry),
      (hp.map Prod.snd).Nodup → (∀ x ∈ hp, x.2 < n) →
      ((((List.enumFrom n rows).foldl
            (fun h p => offerEntry topk h (dot p.2 q, p.1)) hp).map Prod.snd).Nodup ∧
        ∀ x ∈ (List.enumFrom n rows).foldl
            (fun h p => offerEntry topk h (dot p.2 q, p.1)) hp,
          x.2 < n + rows.length) := by
  intro rows
  induction rows with
  | nil =>
    intro n hp h1 h2
    refine ⟨h1, ?_⟩
    intro x hx
    have := h2 x hx
    simp only [List.length_nil]
    omega
  | cons r rows ih =>
    intro n hp h1 h2
    rw [List.enumFrom_cons, List.foldl_cons]
    have step := offerEntry_ids_invariant topk n hp (dot r q) h1 h2
    have res := ih (n + 1) (offerEntry topk hp (dot r q, n)) step.1 step.2
    refine ⟨res.1, ?_⟩
    intro x hx
    have := res.2 x hx
    rw [List.length_cons]
    omega

theorem gtHeap_eq_corpus_fold (topk : Nat) (q : Row) :
    ∀ (shards : List Shard) (n : Nat) (hp : List Entry), contiguousFrom n shards = true →
      shards.foldl (scanShard topk q) hp =
        (List.enumFrom n (corpusOf shards)).foldl
          (fun h p => offerEntry topk h (dot p.2 q, p.1)) hp := by
  intro shards
  induction shards with
  | nil =>
    intro n hp _
    rfl
  | cons s rest ih =>
    intro n hp hc
    rw [contiguousFrom, Bool.and_eq_true, decide_eq_true_eq] at hc
    obtain ⟨hstart, hcont⟩ := hc
    have hs0 : scanShard topk q hp s =
        (List.enumFrom n s.rows).foldl (fun h p => offerEntry topk h (dot p.2 q, p.1)) hp := by
      rw [scanShard, hstart]
    rw [List.foldl_cons, hs0, ih (n + s.rows.length) _ hcont, corpusOf_cons,
      List.enumFrom_append, List.foldl_append]

theorem gtHeapForQuery_ids_nodup (shards : List Shard) (topk : Nat) (q : Row) (n : Nat)
    (hc : contiguousFrom n shards = true) :
    ((gtHeapForQuery shards topk q).map Prod.snd).Nodup := by
  rw [gtHeapForQuery, gtHeap_eq_corpus_fold topk q shards n [] hc]
  refine (scan_rows_ids_invariant topk q (corpusOf shards) n [] ?_ ?_).1
  · exact List.nodup_nil
  · intro x hx
    cases hx

theorem sortDescEntries_sorted (l : List Entry) :
    List.Sorted entryGe (sortDescEntries l) :=
  List.sorted_insertionSort entryGe l

theorem sortDescEntries_perm (l : List Entry) :
    List.Perm (sortDescEntries l) l :=
  List.perm_insertionSort entryGe l

theorem gtTopk_tied_example_eval :
    gtTopkForQuery [⟨0, [[1], [1]]⟩] 2 [1] = [(1, (1 : ℚ)), (0, 1)] := by
  norm_num [gtTopkForQuery, gtHeapForQuery, scanShard, offerEntry, heappushpop, heapInsert,
    sortDescEntries, dot, entryLt, entryGe, List.insertionSort, List.orderedInsert,
    List.enumFrom_cons, List.enumFrom_nil, List.foldl_cons, List.foldl_nil,
    List.zipWith, List.sum_cons, List.sum_nil]

/-- Counterexample to C3: the one-shard corpus `[[1], [1]]` at `dim = 1`
with query `[1]` and `k = 2`.  Both docs score exactly `1`.  The emitted
`topk` list is `[(doc 1, 1), (doc 0, 1)]`: among the two equal-score
candidates, the one with the *higher* doc id is ranked first, refuting the
claim that the lower doc id ranks first. -/
theorem gt_topk_equal_scores_higher_doc_first_example :
    gtTopkForQuery [⟨0, [[1], [1]]⟩] 2 [1] = [(1, (1 : ℚ)), (0, 1)] ∧
      ¬ (∀ i j d1 d2 : Nat, ∀ s1 s2 : ℚ, i < j →
          (gtTopkForQuery [⟨0, [[1], [1]]⟩] 2 [1])[i]? = some (d1, s1) →
          (gtTopkForQuery [⟨0, [[1], [1]]⟩] 2 [1])[j]? = some (d2, s2) →
          s1 = s2 → d1 < d2) := by
  refine ⟨gtTopk_tied_example_eval, ?_⟩
  intro hmono
  have ha : (gtTopkForQuery [⟨0, [[1], [1]]⟩] 2 [1])[0]? = some (1, (1 : ℚ)) := by
    rw [gtTopk_tied_example_eval]
    rfl
  have hb : (gtTopkForQuery [⟨0, [[1], [1]]⟩] 2 [1])[1]? = some (0, (1 : ℚ)) := by
    rw [gtTopk_tied_example_eval]
    rfl
  have h := hmono 0 1 1 0 1 1 (by omega) ha hb rfl
  omega

/-- C3 as amended: in every `GroundTruthEntry` emitted by the ground-truth
engine over a contiguous catalog, whenever two candidates in the final
`topk` list have exactly equal scores, the candidate with the *higher*
`doc_id` is ranked before the one with the lower `doc_id` (the
`(score, doc_id)` tuples are sorted descending, and the doc-id tie-break of
the tuple order points the other way from the claim). -/
theorem gt_topk_equal_scores_rank_higher_doc_first (shards : List Shard)
    (topk n i j d1 d2 : Nat) (q : Row) (s1 s2 : ℚ)
    (hc : contiguousFrom n shards = true) (hij : i < j)
    (hi : (gtTopkForQuery shards topk q)[i]? = some (d1, s1))
    (hj : (gtTopkForQuery shards topk q)[j]? = some (d2, s2))
    (hs : s1 = s2) : d2 < d1 := by
  rw [gtTopkForQuery, List.getElem?_map, Option.map_eq_some'] at hi hj
  obtain ⟨ei, hei, heid⟩ := hi
  obtain ⟨ej, hej, hejd⟩ := hj
  obtain ⟨hei2, hei1⟩ := Prod.mk.inj heid
  obtain ⟨hej2, hej1⟩ := Prod.mk.inj hejd
  have heiv : ei = (s1, d1) := Prod.ext hei1 hei2
  have hejv : ej = (s2, d2) := Prod.ext hej1 hej2
  subst heiv hejv
  rw [List.getElem?_eq_some] at hei hej
  obtain ⟨hilt, hie⟩ := hei
  obtain ⟨hjlt, hje⟩ := hej
  have hsorted : List.Sorted entryGe (sortDescEntries (gtHeapForQuery shards topk q)) :=
    sortDescEntries_sorted _
  have hrel := @List.Sorted.rel_get_of_lt Entry entryGe
    (sortDescEntries (gtHeapForQuery shards topk q)) hsorted
    ⟨i, hilt⟩ ⟨j, hjlt⟩ (Fin.mk_lt_mk.mpr hij)
  rw [List.get_eq_getElem, List.get_eq_getElem] at hrel
  rw [hie, hje] at hrel
  have hge : ¬ entryLt (s1, d1) (s2, d2) := hrel
  have hnotlt : ¬ d1 < d2 := by
    intro hdd
    exact hge (Or.inr ⟨hs, hdd⟩)
  have hLnd : ((sortDescEntries (gtHeapForQuery shards topk q)).map Prod.snd).Nodup := by
    rw [(List.Perm.map Prod.snd (sortDescEntries_perm (gtHeapForQuery shards topk q))).nodup_iff]
    exact gtHeapForQuery_ids_nodup shards topk q n hc
  have hLnodup : (sortDescEntries (gtHeapForQuery shards topk q)).Nodup := hLnd.of_map
  by_contra hlt'
  have hd : d1 = d2 := by omega
  have hentry : (sortDescEntries (gtHeapForQuery shards topk q)).get ⟨i, hilt⟩ =
      (sortDescEntries (gtHeapForQuery shards topk q)).get ⟨j, hjlt⟩ := by
    rw [List.get_eq_getElem, List.get_eq_getElem, hie, hje, hs, hd]
  have hij' := (hLnodup.get_inj_iff).mp hentry
  have : i = j := congrArg Fin.val hij'
  omega

/-- Witness for the amended C3: in the concrete tied example, the entry at
position 0 is `(doc 1, 1)`, the entry at position 1 is `(doc 0, 1)`, and
the theorem yields `0 < 1`. -/
theorem gt_topk_equal_scores_rank_higher_doc_first_witness :
    (gtTopkForQuery [⟨0, [[1], [1]]⟩] 2 [1])[0]? = some (1, (1 : ℚ)) ∧
      (gtTopkForQuery [⟨0, [[1], [1]]⟩] 2 [1])[1]? = some (0, (1 : ℚ)) ∧ (0 : Nat) < 1 := by
  have ha : (gtTopkForQuery [⟨0, [[1], [1]]⟩] 2 [1])[0]? = some (1, (1 : ℚ)) := by
    rw [gtTopk_tied_example_eval]
    rfl
  have hb : (gtTopkForQuery [⟨0, [[1], [1]]⟩] 2 [1])[1]? = some (0, (1 : ℚ)) := by
    rw [gtTopk_tied_example_eval]
    rfl
  exact ⟨ha, hb,
    gt_topk_equal_scores_rank_higher_doc_first [⟨0, [[1], [1]]⟩] 2 0 0 1 1 0 [1] 1 1
      (by decide) (by omega) ha hb rfl⟩

end ArcadeBench
